import Mathlib

/-
Verification development for the style-aligned attention patch module.

The module is embedded shallowly: a tensor is a shape together with a total
data function from multi-indices to rationals, and every torch operation the
source composes (stack, unsqueeze, expand, repeat, slicing, concatenation,
row-major reshape, broadcasting pointwise arithmetic, mean/var reductions) is
translated as its own Lean function.  The square root has no computable
counterpart on the rationals, so it is threaded through as an explicit
function parameter; all statements hold for every choice of that parameter.
-/

namespace StyleAligned

/-- A tensor: a shape (list of extents) together with a total data function on
multi-indices.  Only indices that are pointwise below the shape are
meaningful. -/
structure Tensor where
  shape : List ℕ
  data : List ℕ → ℚ

/-- Pointwise bounds check of a multi-index against a shape. -/
def validIx : List ℕ → List ℕ → Bool
  | [], [] => true
  | s :: sh, i :: ix => decide (i < s) && validIx sh ix
  | _, _ => false

/-- Row-major linearisation of a multi-index (the extent of the leading axis
is irrelevant, as in row-major layout). -/
def linIdx : List ℕ → List ℕ → ℕ
  | _ :: sh, i :: ix => i * sh.prod + linIdx sh ix
  | _, _ => 0

/-- Row-major delinearisation of a flat offset into a multi-index. -/
def multiIdx : List ℕ → ℕ → List ℕ
  | _ :: sh, n => n / sh.prod :: multiIdx sh (n % sh.prod)
  | [], _ => []

/-- Indexing along the batch axis: the embedding of `feat[i]`. -/
def Tensor.index0 (t : Tensor) (i : ℕ) : Tensor :=
  ⟨t.shape.tail, fun ix => t.data (i :: ix)⟩

/-- The embedding of `torch.stack((a, b))`: a new leading axis of extent 2. -/
def Tensor.stack2 (a b : Tensor) : Tensor :=
  ⟨2 :: a.shape, fun ix =>
    match ix with
    | [] => 0
    | i :: ix2 => if i = 0 then a.data ix2 else b.data ix2⟩

/-- The embedding of `.unsqueeze(1)`: insert an axis of extent 1 at position 1. -/
def Tensor.unsqueeze1 (t : Tensor) : Tensor :=
  ⟨t.shape.headD 0 :: 1 :: t.shape.tail, fun ix =>
    match ix with
    | i :: _ :: ix2 => t.data (i :: ix2)
    | _ => 0⟩

/-- Index transformation shared by `expand` and broadcasting: axes of extent 1
read index 0. -/
def bix (sh ix : List ℕ) : List ℕ :=
  List.zipWith (fun s i => if s = 1 then 0 else i) sh ix

/-- The embedding of `.expand(target)`: axes of extent 1 are broadcast. -/
def Tensor.expandShape (t : Tensor) (target : List ℕ) : Tensor :=
  ⟨target, fun ix => t.data (bix t.shape ix)⟩

/-- The embedding of `.repeat(reps)`: each axis extent is multiplied by its
repetition count and reads cycle through the original extent. -/
def Tensor.repeatDims (t : Tensor) (reps : List ℕ) : Tensor :=
  ⟨List.zipWith (· * ·) reps t.shape, fun ix =>
    t.data (List.zipWith (fun i s => i % s) ix t.shape)⟩

/-- The embedding of the slice `[:hi]` along axis `d`. -/
def Tensor.sliceTo (t : Tensor) (d hi : ℕ) : Tensor :=
  ⟨t.shape.set d (min hi (t.shape.getD d 0)), t.data⟩

/-- The embedding of the slice `[lo:]` along axis `d`. -/
def Tensor.sliceFrom (t : Tensor) (d lo : ℕ) : Tensor :=
  ⟨t.shape.set d (t.shape.getD d 0 - lo),
    fun ix => t.data (ix.set d (ix.getD d 0 + lo))⟩

/-- The embedding of `torch.cat((a, b), dim=d)` for a nonnegative axis `d`. -/
def Tensor.catAt (a b : Tensor) (d : ℕ) : Tensor :=
  ⟨a.shape.set d (a.shape.getD d 0 + b.shape.getD d 0), fun ix =>
    if ix.getD d 0 < a.shape.getD d 0 then a.data ix
    else b.data (ix.set d (ix.getD d 0 - a.shape.getD d 0))⟩

/-- Pythonic axis normalisation: a negative axis counts from the end. -/
def normDim (rank : ℕ) (d : ℤ) : ℕ :=
  (if d < 0 then (rank : ℤ) + d else d).toNat

/-- The embedding of `torch.cat((a, b), dim=d)` with a possibly negative axis. -/
def Tensor.cat (a b : Tensor) (d : ℤ) : Tensor :=
  Tensor.catAt a b (normDim a.shape.length d)

/-- Multiplication of a tensor by a scalar. -/
def Tensor.smul (c : ℚ) (t : Tensor) : Tensor :=
  ⟨t.shape, fun ix => c * t.data ix⟩

/-- The embedding of `.reshape(target)`: row-major relinearisation. -/
def Tensor.reshape (t : Tensor) (target : List ℕ) : Tensor :=
  ⟨target, fun ix => t.data (multiIdx t.shape (linIdx target ix))⟩

/-- Broadcast extent combination: an extent of 1 yields the other extent. -/
def bsize (a b : ℕ) : ℕ := if a = 1 then b else a

/-- Pointwise binary operation with torch-style broadcasting of extent-1 axes
between same-rank tensors. -/
def Tensor.binop (f : ℚ → ℚ → ℚ) (a b : Tensor) : Tensor :=
  ⟨List.zipWith bsize a.shape b.shape, fun ix =>
    f (a.data (bix a.shape ix)) (b.data (bix b.shape ix))⟩

/-- Broadcasting subtraction. -/
def Tensor.sub (a b : Tensor) : Tensor := Tensor.binop (fun x y => x - y) a b

/-- Broadcasting addition. -/
def Tensor.add (a b : Tensor) : Tensor := Tensor.binop (fun x y => x + y) a b

/-- Broadcasting multiplication. -/
def Tensor.mul (a b : Tensor) : Tensor := Tensor.binop (fun x y => x * y) a b

/-- Broadcasting division (rational division, total). -/
def Tensor.div (a b : Tensor) : Tensor := Tensor.binop (fun x y => x / y) a b

/-- The embedding of `.mean(dim=d, keepdims=True)`. -/
def Tensor.meanDim (t : Tensor) (d : ℕ) : Tensor :=
  ⟨t.shape.set d 1, fun ix =>
    (((List.range (t.shape.getD d 0)).map fun j => t.data (ix.set d j)).sum)
      / (t.shape.getD d 0 : ℚ)⟩

/-- The embedding of `.var(dim=d, keepdims=True)` (torch default: unbiased,
dividing by the reduced extent minus one). -/
def Tensor.varDim (t : Tensor) (d : ℕ) : Tensor :=
  ⟨t.shape.set d 1, fun ix =>
    (((List.range (t.shape.getD d 0)).map fun j =>
        (t.data (ix.set d j) -
          (((List.range (t.shape.getD d 0)).map fun j2 => t.data (ix.set d j2)).sum)
            / (t.shape.getD d 0 : ℚ)) ^ 2).sum)
      / ((t.shape.getD d 0 : ℚ) - 1)⟩

/-- Elementwise application of a scalar function (used for the square root). -/
def Tensor.mapElems (f : ℚ → ℚ) (t : Tensor) : Tensor :=
  ⟨t.shape, fun ix => f (t.data ix)⟩

/-- The embedding of `expand_first` from the source.  The Python default
`scale=1.0` is passed explicitly by every caller below. -/
def expand_first (feat : Tensor) (scale : ℚ) : Tensor :=
  let b := feat.shape.headD 0
  let feat_style := (Tensor.stack2 (feat.index0 0) (feat.index0 (b / 2))).unsqueeze1
  let feat_style :=
    if scale = 1 then
      feat_style.expandShape (2 :: (b / 2) :: feat.shape.tail)
    else
      let fs := feat_style.repeatDims [1, b / 2, 1, 1, 1]
      Tensor.catAt (fs.sliceTo 1 1) (Tensor.smul scale (fs.sliceFrom 1 1)) 1
  feat_style.reshape feat.shape

/-- The embedding of `concat_first` from the source (Python defaults `dim=2`,
`scale=1.0` are passed explicitly by callers). -/
def concat_first (feat : Tensor) (dim : ℤ) (scale : ℚ) : Tensor :=
  let feat_style := expand_first feat scale
  Tensor.cat feat feat_style dim

/-- The embedding of `calc_mean_std` from the source; `sq` stands for the
square root, abstract on the rationals.  The Python default `eps=1e-5` is
passed explicitly by callers. -/
def calc_mean_std (sq : ℚ → ℚ) (feat : Tensor) (eps : ℚ) : Tensor × Tensor :=
  let d := normDim feat.shape.length (-2)
  let feat_std := ((feat.varDim d).mapElems (fun v => sq (v + eps)))
  let feat_mean := feat.meanDim d
  (feat_mean, feat_std)

/-- The embedding of `adain` from the source. -/
def adain (sq : ℚ → ℚ) (feat : Tensor) : Tensor :=
  let ms := calc_mean_std sq feat (1 / 100000)
  let feat_mean := ms.1
  let feat_std := ms.2
  let feat_style_mean := expand_first feat_mean 1
  let feat_style_std := expand_first feat_std 1
  let feat2 := (feat.sub feat_mean).div feat_std
  (feat2.mul feat_style_std).add feat_style_mean

/-- An attention mask; its Python truthiness is nonemptiness. -/
abbrev Mask := List ℚ

/-- Which external attention kernel the dispatch selected, with the arguments
passed to it. -/
inductive AttnCall where
  | unmasked (q k v : Tensor) (heads : ℕ)
  | masked (q k v : Tensor) (heads : ℕ) (mask : Mask)

/-- The embedding of `sdpa` from the source: the Python test `if mask:` is
truthiness, so a present mask is tested for nonemptiness (Python defaults
`mask=None`, `heads=8` are passed explicitly by callers). -/
def sdpa (q k v : Tensor) (mask : Option Mask) (heads : ℕ) : AttnCall :=
  match mask with
  | some m =>
      if m.isEmpty then AttnCall.unmasked q k v heads
      else AttnCall.masked q k v heads m
  | none => AttnCall.unmasked q k v heads

/-- The embedding of the `StyleAlignedArgs` dataclass. -/
structure StyleAlignedArgs where
  share_attention : Bool
  adain_queries : Bool
  adain_keys : Bool
  adain_values : Bool
  shared_score_shift : ℚ
  only_self_level : ℚ

/-- The dataclass defaults from the source. -/
def defaultStyleAlignedArgs : StyleAlignedArgs :=
  ⟨true, true, true, false, 0, 0⟩

/-- The embedding of the `SharedAttentionProcessor` instance state. -/
structure SharedAttentionProcessor where
  args : StyleAlignedArgs
  scale : ℚ
  ref_img : Option Tensor

/-- The embedding of `SharedAttentionProcessor.__call__`; `extra_options` is
accepted and ignored exactly as in the source. -/
def SharedAttentionProcessor.call {α : Type} (sq : ℚ → ℚ)
    (p : SharedAttentionProcessor) (q k v : Tensor) (extra_options : α) :
    Tensor × Tensor × Tensor :=
  let q := if p.args.adain_queries then adain sq q else q
  let k := if p.args.adain_keys then adain sq k else k
  let v := if p.args.adain_values then adain sq v else v
  let kv :=
    if p.args.share_attention then
      (concat_first k (-2) p.scale, concat_first v (-2) 1)
    else (k, v)
  (q, kv.1, kv.2)

/-- The kind of a module node, standing for the isinstance checks of the
source. -/
inductive NormKind where
  | layerNorm
  | groupNorm
  | other
deriving DecidableEq

/-- A normalisation layer: its forward function together with the optionally
cached original forward (the `orig_forward` attribute; absence of the
attribute is `none`). -/
structure NormLayer where
  forward : Tensor → Tensor
  orig_forward : Option (Tensor → Tensor)

/-- A module tree node: an identifier, its kind, its layer state and its
children. -/
inductive Module where
  | node (id : ℕ) (kind : NormKind) (layer : NormLayer) (children : List Module)

/-- The registry built by the walker: the dict of recorded node identifiers
keyed by kind. -/
structure NormRegistry where
  group : List ℕ
  layer : List ℕ

mutual
/-- The embedding of `get_norm_layers` from the source: the else-branch of the
group-norm test is the only place recursion happens. -/
def get_norm_layers (m : Module) (reg : NormRegistry)
    (share_layer_norm share_group_norm : Bool) : NormRegistry :=
  match m with
  | .node i kind _ children =>
    let reg :=
      if kind = NormKind.layerNorm ∧ share_layer_norm = true then
        { reg with layer := reg.layer ++ [i] }
      else reg
    if kind = NormKind.groupNorm ∧ share_group_norm = true then
      { reg with group := reg.group ++ [i] }
    else get_norm_layers_list children reg share_layer_norm share_group_norm

/-- The `for child_layer in layer.children()` loop of `get_norm_layers`. -/
def get_norm_layers_list (ms : List Module) (reg : NormRegistry)
    (share_layer_norm share_group_norm : Bool) : NormRegistry :=
  match ms with
  | [] => reg
  | c :: cs =>
      get_norm_layers_list cs (get_norm_layers c reg share_layer_norm share_group_norm)
        share_layer_norm share_group_norm
end

/-- The embedding of `register_norm_forward` from the source: the hasattr
guard caches the current forward only when nothing is cached yet, and the
installed replacement widens along the sequence axis, delegates to the cached
original, and truncates back. -/
def register_norm_forward (norm_layer : NormLayer) : NormLayer :=
  let norm_layer :=
    if norm_layer.orig_forward.isNone then
      { norm_layer with orig_forward := some norm_layer.forward }
    else norm_layer
  let orig_forward := norm_layer.orig_forward.getD norm_layer.forward
  let forward_ : Tensor → Tensor := fun hidden_states =>
    let n := hidden_states.shape.getD (hidden_states.shape.length - 2) 0
    let hidden_states := concat_first hidden_states (-2) 1
    let hidden_states := orig_forward hidden_states
    hidden_states.sliceTo (hidden_states.shape.length - 2) n
  { norm_layer with forward := forward_ }

mutual
/-- State-passing embedding of the effect of `register_shared_norm` on the
layer tree: in Python the walker collects aliased layer objects and
`register_norm_forward` mutates each in place; here the same traversal applies
that per-layer update directly, wrapping exactly the nodes the walker records
(recursion stops at a recorded group norm, exactly as in `get_norm_layers`). -/
def register_shared_norm_tree (m : Module)
    (share_layer_norm share_group_norm : Bool) : Module :=
  match m with
  | .node i kind layer children =>
    let layer :=
      if kind = NormKind.layerNorm ∧ share_layer_norm = true then
        register_norm_forward layer
      else layer
    if kind = NormKind.groupNorm ∧ share_group_norm = true then
      .node i kind (register_norm_forward layer) children
    else
      .node i kind layer
        (register_shared_norm_list children share_layer_norm share_group_norm)

/-- The children traversal of `register_shared_norm_tree`. -/
def register_shared_norm_list (ms : List Module)
    (share_layer_norm share_group_norm : Bool) : List Module :=
  match ms with
  | [] => []
  | c :: cs =>
      register_shared_norm_tree c share_layer_norm share_group_norm ::
        register_shared_norm_list cs share_layer_norm share_group_norm
end

/-- Modelled from the spec: the host `ModelPatcher` is external (only its
clone and attention-hook capabilities are used); per §6 it exposes a layer
tree and a settable attention hook. -/
structure ModelPatcher where
  model : Module
  attn1_patch : Option SharedAttentionProcessor

/-- Modelled from the spec: `ModelPatcher.clone` is external; §6 describes it
as "a cloneable copy-on-patch operation", so cloning yields an independent
copy of the patcher state (value semantics). -/
def ModelPatcher.clone (m : ModelPatcher) : ModelPatcher := m

/-- Modelled from the spec: `set_model_attn1_patch` is external; §6 describes
"a settable attention hook accepting a callable". -/
def ModelPatcher.set_model_attn1_patch (m : ModelPatcher)
    (p : SharedAttentionProcessor) : ModelPatcher :=
  { m with attn1_patch := some p }

/-- The embedding of `register_shared_norm` from the source: collect the norm
layers of the model and wrap each (the in-place setattr mutation is passed as
state). -/
def register_shared_norm (model : ModelPatcher)
    (share_group_norm share_layer_norm : Bool) : ModelPatcher :=
  { model with
      model := register_shared_norm_tree model.model share_layer_norm share_group_norm }

/-- The embedding of `StyleAlignedPatch.patch`.  Python mutates the `model`
argument in place and returns the clone `m`; the embedding returns the pair
(final state of the argument, returned patched model). -/
def StyleAlignedPatch.patch (model : ModelPatcher) (share_norm : String)
    (scale : ℚ) (style_image : Option Tensor) : ModelPatcher × ModelPatcher :=
  let args := defaultStyleAlignedArgs
  let m := model.clone
  let share_group_norm := ["group", "both"].contains share_norm
  let share_layer_norm := ["layer", "both"].contains share_norm
  let model := register_shared_norm model share_group_norm share_layer_norm
  let m := m.set_model_attn1_patch ⟨args, scale, style_image⟩
  (model, m)

/-- The sequence axis (second-to-last) of a tensor. -/
def seqDim (t : Tensor) : ℕ := t.shape.length - 2

/-- The extent of the sequence axis of a tensor. -/
def seqLen (t : Tensor) : ℕ := t.shape.getD (seqDim t) 0

/-- The mean over the sequence axis as the spec words it: the per-feature
average over the second-to-last axis. -/
def meanFormula (t : Tensor) (ix : List ℕ) : ℚ :=
  (((List.range (seqLen t)).map fun j => t.data (ix.set (seqDim t) j)).sum)
    / (seqLen t : ℚ)

/-- The variance over the sequence axis as the spec words it (unbiased, as
the torch default the source relies on). -/
def varFormula (t : Tensor) (ix : List ℕ) : ℚ :=
  (((List.range (seqLen t)).map fun j =>
      (t.data (ix.set (seqDim t) j) - meanFormula t ix) ^ 2).sum)
    / ((seqLen t : ℚ) - 1)

/-- A concrete rank-2 tensor of shape [2, 1] used to instantiate theorems. -/
def wT : Tensor := ⟨[2, 1], fun ix => (ix.headD 0 : ℚ)⟩

/-- A concrete rank-3 tensor of shape [2, 1, 1] used to instantiate theorems. -/
def cT : Tensor := ⟨[2, 1, 1], fun ix => (ix.headD 0 : ℚ)⟩

/-- A concrete rank-4 tensor of shape [4, 1, 1, 1] whose batch slot i holds
the value i. -/
def cT4 : Tensor := ⟨[4, 1, 1, 1], fun ix => (ix.headD 0 : ℚ)⟩

/-- A concrete pristine normalisation layer (identity forward, nothing
cached). -/
def idNormLayer : NormLayer := ⟨fun t => t, none⟩

/-- A valid multi-index linearises below the product of the shape. -/
theorem linIdx_lt : ∀ (sh ix : List ℕ), validIx sh ix = true → linIdx sh ix < sh.prod
  | [], [], _ => by simp [linIdx]
  | [], _ :: _, h => by simp [validIx] at h
  | _ :: _, [], h => by simp [validIx] at h
  | s :: sh, i :: ix, h => by
      simp only [validIx, Bool.and_eq_true, decide_eq_true_eq] at h
      have hr := linIdx_lt sh ix h.2
      calc linIdx (s :: sh) (i :: ix) = i * sh.prod + linIdx sh ix := rfl
        _ < i * sh.prod + sh.prod := by omega
        _ = (i + 1) * sh.prod := by ring
        _ ≤ s * sh.prod := Nat.mul_le_mul_right _ h.1
        _ = (s :: sh).prod := (List.prod_cons).symm

/-- Row-major delinearisation inverts linearisation on valid indices. -/
theorem multiIdx_linIdx : ∀ (sh ix : List ℕ), validIx sh ix = true →
    multiIdx sh (linIdx sh ix) = ix
  | [], [], _ => rfl
  | [], _ :: _, h => by simp [validIx] at h
  | _ :: _, [], h => by simp [validIx] at h
  | s :: sh, i :: ix, h => by
      simp only [validIx, Bool.and_eq_true, decide_eq_true_eq] at h
      have hr := linIdx_lt sh ix h.2
      have hP : 0 < sh.prod := Nat.lt_of_le_of_lt (Nat.zero_le _) hr
      have hrw : linIdx (s :: sh) (i :: ix) = linIdx sh ix + sh.prod * i := by
        show i * sh.prod + linIdx sh ix = _
        ring
      have hdiv : (linIdx sh ix + sh.prod * i) / sh.prod = i := by
        rw [Nat.add_mul_div_left _ _ hP, Nat.div_eq_of_lt hr, Nat.zero_add]
      have hmod : (linIdx sh ix + sh.prod * i) % sh.prod = linIdx sh ix := by
        rw [Nat.add_mul_mod_self_left, Nat.mod_eq_of_lt hr]
      show (linIdx (s :: sh) (i :: ix)) / sh.prod ::
          multiIdx sh ((linIdx (s :: sh) (i :: ix)) % sh.prod) = i :: ix
      rw [hrw, hdiv, hmod, multiIdx_linIdx sh ix h.2]

/-- On a valid multi-index the broadcast index transformation is the
identity. -/
theorem bix_valid : ∀ (sh ix : List ℕ), validIx sh ix = true → bix sh ix = ix
  | [], [], _ => rfl
  | [], _ :: _, h => by simp [validIx] at h
  | _ :: _, [], h => by simp [validIx] at h
  | s :: sh, i :: ix, h => by
      simp only [validIx, Bool.and_eq_true, decide_eq_true_eq] at h
      show (if s = 1 then 0 else i) :: bix sh ix = i :: ix
      rw [bix_valid sh ix h.2]
      rcases eq_or_ne s 1 with hs | hs
      · subst hs
        have : i = 0 := by omega
        simp [this]
      · rw [if_neg hs]

/-- On a valid multi-index the componentwise remainder by the shape is the
identity. -/
theorem modIx_valid : ∀ (sh ix : List ℕ), validIx sh ix = true →
    List.zipWith (fun i s => i % s) ix sh = ix
  | [], [], _ => rfl
  | [], _ :: _, h => by simp [validIx] at h
  | _ :: _, [], h => by simp [validIx] at h
  | s :: sh, i :: ix, h => by
      simp only [validIx, Bool.and_eq_true, decide_eq_true_eq] at h
      show i % s :: List.zipWith (fun i s => i % s) ix sh = i :: ix
      rw [Nat.mod_eq_of_lt h.1, modIx_valid sh ix h.2]

/-- Delinearising a merged batch offset into the stacked layout: the flat
offset of row i of a tensor of shape (2*h) :: rest lands at position
(i / h, i % h) of the layout 2 :: h :: rest. -/
theorem multiIdx_merge (h : ℕ) (rest : List ℕ) (i : ℕ) (ix : List ℕ)
    (hh : 0 < h) (hi : i < 2 * h) (hix : validIx rest ix = true) :
    multiIdx (2 :: h :: rest) (i * rest.prod + linIdx rest ix) =
      i / h :: i % h :: ix := by
  have hv : validIx (2 :: h :: rest) (i / h :: i % h :: ix) = true := by
    simp only [validIx, Bool.and_eq_true, decide_eq_true_eq]
    refine ⟨?_, Nat.mod_lt _ hh, hix⟩
    exact Nat.div_lt_of_lt_mul (by omega)
  have harith : i * rest.prod + linIdx rest ix =
      linIdx (2 :: h :: rest) (i / h :: i % h :: ix) := by
    show i * rest.prod + linIdx rest ix =
      (i / h) * (h :: rest).prod + ((i % h) * rest.prod + linIdx rest ix)
    rw [List.prod_cons]
    have hdm : h * (i / h) + i % h = i := Nat.div_add_mod i h
    calc i * rest.prod + linIdx rest ix
        = (h * (i / h) + i % h) * rest.prod + linIdx rest ix := by rw [hdm]
      _ = (i / h) * (h * rest.prod) + ((i % h) * rest.prod + linIdx rest ix) := by
          ring
  rw [harith, multiIdx_linIdx _ _ hv]

/-- Broadcast extent combination of a shape against itself is the identity. -/
theorem zipWith_bsize_self : ∀ (sh : List ℕ), List.zipWith bsize sh sh = sh
  | [] => rfl
  | s :: sh => by
      show bsize s s :: List.zipWith bsize sh sh = s :: sh
      rw [zipWith_bsize_self sh]
      unfold bsize
      rcases eq_or_ne s 1 with hs | hs
      · simp [hs]
      · rw [if_neg hs]

/-- Broadcast extent combination of a shape against itself with one axis set
to 1 is the identity. -/
theorem zipWith_bsize_set_one : ∀ (sh : List ℕ) (d : ℕ),
    List.zipWith bsize sh (sh.set d 1) = sh
  | [], _ => rfl
  | s :: sh, 0 => by
      show bsize s 1 :: List.zipWith bsize sh sh = s :: sh
      rw [zipWith_bsize_self sh]
      unfold bsize
      rcases eq_or_ne s 1 with hs | hs
      · simp [hs]
      · rw [if_neg hs]
  | s :: sh, d + 1 => by
      show bsize s s :: List.zipWith bsize sh (sh.set d 1) = s :: sh
      rw [zipWith_bsize_set_one sh d]
      unfold bsize
      rcases eq_or_ne s 1 with hs | hs
      · simp [hs]
      · rw [if_neg hs]

/-- Reading back an axis extent just written. -/
theorem getD_set_self : ∀ (l : List ℕ) (d v : ℕ), d < l.length →
    (l.set d v).getD d 0 = v
  | [], d, v, h => by simp at h
  | a :: l, 0, v, _ => rfl
  | a :: l, d + 1, v, h => by
      show (l.set d v).getD d 0 = v
      exact getD_set_self l d v (by simpa using h)

/-- Writing back the extent an axis already has changes nothing. -/
theorem set_getD_self : ∀ (l : List ℕ) (d : ℕ), d < l.length →
    l.set d (l.getD d 0) = l
  | [], d, h => by simp at h
  | a :: l, 0, _ => rfl
  | a :: l, d + 1, h => by
      show a :: l.set d (l.getD d 0) = a :: l
      rw [set_getD_self l d (by simpa using h)]

/-- A valid multi-index is pointwise below the shape. -/
theorem validIx_getD : ∀ (sh ix : List ℕ), validIx sh ix = true →
    ∀ d, d < sh.length → ix.getD d 0 < sh.getD d 0
  | [], [], _, d, hd => by simp at hd
  | [], _ :: _, h, _, _ => by simp [validIx] at h
  | _ :: _, [], h, _, _ => by simp [validIx] at h
  | s :: sh, i :: ix, h, 0, _ => by
      simp only [validIx, Bool.and_eq_true, decide_eq_true_eq] at h
      exact h.1
  | s :: sh, i :: ix, h, d + 1, hd => by
      simp only [validIx, Bool.and_eq_true, decide_eq_true_eq] at h
      exact validIx_getD sh ix h.2 d (by simpa using hd)

/-- Axis normalisation of -2 on a rank of at least 2. -/
theorem normDim_neg_two (len : ℕ) (h : 2 ≤ len) : normDim len (-2) = len - 2 := by
  unfold normDim
  split
  · omega
  · omega

/-- Axis normalisation of a nonnegative axis. -/
theorem normDim_coe (len d : ℕ) : normDim len (d : ℤ) = d := by
  unfold normDim
  split
  · omega
  · omega

/-- The batch broadcaster always returns the shape of its input. -/
theorem expand_first_shape (t : Tensor) (s : ℚ) :
    (expand_first t s).shape = t.shape := rfl

/-- The renormaliser always returns the shape of its input. -/
theorem adain_shape (sq : ℚ → ℚ) (t : Tensor) : (adain sq t).shape = t.shape := by
  simp only [adain, calc_mean_std, Tensor.add, Tensor.mul, Tensor.div, Tensor.sub,
    Tensor.binop, Tensor.mapElems, Tensor.meanDim, Tensor.varDim, expand_first_shape,
    zipWith_bsize_set_one]

/-- The shape of the widening concatenation along the sequence axis. -/
theorem concat_first_neg_two_shape (t : Tensor) (s : ℚ) :
    (concat_first t (-2) s).shape =
      t.shape.set (normDim t.shape.length (-2))
        (t.shape.getD (normDim t.shape.length (-2)) 0 +
          t.shape.getD (normDim t.shape.length (-2)) 0) := rfl

/-- Widening along the sequence axis doubles the sequence extent and keeps
the rank. -/
theorem seqLen_concat_first_neg_two (t : Tensor) (s : ℚ)
    (h : 2 ≤ t.shape.length) :
    seqLen (concat_first t (-2) s) = 2 * seqLen t ∧
      (concat_first t (-2) s).shape.length = t.shape.length := by
  have hd : normDim t.shape.length (-2) = t.shape.length - 2 :=
    normDim_neg_two _ h
  have hlen : (concat_first t (-2) s).shape.length = t.shape.length := by
    rw [concat_first_neg_two_shape]
    exact List.length_set ..
  refine ⟨?_, hlen⟩
  unfold seqLen seqDim
  rw [hlen, concat_first_neg_two_shape, hd,
    getD_set_self _ _ _ (by omega)]
  omega

/-- seqLen depends only on the shape. -/
theorem seqLen_of_shape_eq {a b : Tensor} (h : a.shape = b.shape) :
    seqLen a = seqLen b := by
  unfold seqLen seqDim
  rw [h]

/-- C1 counterexample: the dispatch routes a present-but-empty (falsy) mask to
the unmasked kernel, contradicting the claim that any present mask routes to
the masked kernel. -/
theorem sdpa_empty_mask_counterexample :
    sdpa cT cT cT (some ([] : Mask)) 8 = AttnCall.unmasked cT cT cT 8 := rfl

/-- C1 (amended): an absent mask routes to the unmasked kernel and a present
nonempty (truthy) mask routes to the masked kernel, but a present-but-empty
(falsy) mask also routes to the unmasked kernel: the dispatch is by Python
truthiness, not by presence. -/
theorem sdpa_truthiness_dispatch (q k v : Tensor) (heads : ℕ) :
    sdpa q k v none heads = AttnCall.unmasked q k v heads ∧
    (∀ m : Mask, m ≠ [] → sdpa q k v (some m) heads = AttnCall.masked q k v heads m) ∧
    sdpa q k v (some []) heads = AttnCall.unmasked q k v heads := by
  refine ⟨rfl, ?_, rfl⟩
  intro m hm
  cases m with
  | nil => exact absurd rfl hm
  | cons a l => rfl

/-- C1 witness: the amended dispatch theorem applied to a concrete nonempty
mask. -/
theorem sdpa_truthiness_dispatch_witness :
    ([1] : Mask) ≠ [] ∧ sdpa cT cT cT (some [1]) 8 = AttnCall.masked cT cT cT 8 [1] :=
  ⟨by decide, (sdpa_truthiness_dispatch cT cT cT 8).2.1 [1] (by decide)⟩

/-- C7: the walker records a group-norm node when group sharing is enabled and
then does not visit its children (so nothing below it, in particular no
layer-norm child, is ever recorded); a layer-norm node is recorded when layer
sharing is enabled and its children are still visited; and a group-norm node
that is not recorded also has its children visited. -/
theorem get_norm_layers_branching :
    (∀ (i : ℕ) (layer : NormLayer) (cs : List Module) (reg : NormRegistry) (sl : Bool),
      get_norm_layers (.node i .groupNorm layer cs) reg sl true =
        { reg with group := reg.group ++ [i] }) ∧
    (∀ (i : ℕ) (layer : NormLayer) (cs : List Module) (reg : NormRegistry) (sg : Bool),
      get_norm_layers (.node i .layerNorm layer cs) reg true sg =
        get_norm_layers_list cs { reg with layer := reg.layer ++ [i] } true sg) ∧
    (∀ (i : ℕ) (layer : NormLayer) (cs : List Module) (reg : NormRegistry) (sl : Bool),
      get_norm_layers (.node i .groupNorm layer cs) reg sl false =
        get_norm_layers_list cs reg sl false) := by
  refine ⟨?_, ?_, ?_⟩ <;> intros <;> simp [get_norm_layers]

/-- C9: the processor result does not depend on the two float configuration
fields shared_score_shift and only_self_level. -/
theorem shared_score_shift_only_self_level_unused (sq : ℚ → ℚ)
    (sa aq ak av : Bool) (s1 o1 s2 o2 scale : ℚ) (ref : Option Tensor)
    (q k v : Tensor) (α : Type) (eo : α) :
    SharedAttentionProcessor.call sq ⟨⟨sa, aq, ak, av, s1, o1⟩, scale, ref⟩ q k v eo =
      SharedAttentionProcessor.call sq ⟨⟨sa, aq, ak, av, s2, o2⟩, scale, ref⟩ q k v eo :=
  rfl

/-- C10: patch clones first and then wraps the normalisation layers of the
original argument, so the returned model keeps the unwrapped tree and carries
the attention hook, while the final state of the caller's model has the
wrapped tree and no attention hook added. -/
theorem patch_frame_effect (model : ModelPatcher) (share_norm : String)
    (scale : ℚ) (style_image : Option Tensor) :
    (StyleAlignedPatch.patch model share_norm scale style_image).2.model = model.model ∧
    (StyleAlignedPatch.patch model share_norm scale style_image).2.attn1_patch =
      some ⟨defaultStyleAlignedArgs, scale, style_image⟩ ∧
    (StyleAlignedPatch.patch model share_norm scale style_image).1.model =
      register_shared_norm_tree model.model
        (["layer", "both"].contains share_norm)
        (["group", "both"].contains share_norm) ∧
    (StyleAlignedPatch.patch model share_norm scale style_image).1.attn1_patch =
      model.attn1_patch :=
  ⟨rfl, rfl, rfl, rfl⟩

/-- C4: concatenating the broadcast style tensor with scale 1 along an axis
doubles the extent of that axis, leaves the first half equal to the input,
and fills the second half with the broadcast style tensor. -/
theorem concat_first_axis_doubling (t : Tensor) (b : ℕ) (rest : List ℕ) (d : ℕ)
    (hsh : t.shape = b :: rest) (heven : b % 2 = 0) (hb : 0 < b)
    (hd : d < t.shape.length) :
    (concat_first t (d : ℤ) 1).shape.getD d 0 = 2 * t.shape.getD d 0 ∧
    (∀ ix, validIx t.shape ix = true →
      (concat_first t (d : ℤ) 1).data ix = t.data ix) ∧
    (∀ ix, t.shape.getD d 0 ≤ ix.getD d 0 →
      (concat_first t (d : ℤ) 1).data ix =
        (expand_first t 1).data (ix.set d (ix.getD d 0 - t.shape.getD d 0))) := by
  have hnd : normDim t.shape.length (d : ℤ) = d := normDim_coe _ _
  refine ⟨?_, ?_, ?_⟩
  · simp only [concat_first, Tensor.cat, hnd, Tensor.catAt, expand_first_shape]
    rw [getD_set_self _ _ _ hd]
    omega
  · intro ix hix
    have hlt := validIx_getD _ _ hix d hd
    simp only [concat_first, Tensor.cat, hnd, Tensor.catAt]
    rw [if_pos hlt]
  · intro ix hge
    simp only [concat_first, Tensor.cat, hnd, Tensor.catAt]
    rw [if_neg (by omega)]

/-- C4 witness: the doubling theorem applied to a concrete tensor along axis 1. -/
theorem concat_first_axis_doubling_witness :
    (concat_first wT ((1 : ℕ) : ℤ) 1).shape.getD 1 0 = 2 * wT.shape.getD 1 0 ∧
    (∀ ix, validIx wT.shape ix = true →
      (concat_first wT ((1 : ℕ) : ℤ) 1).data ix = wT.data ix) ∧
    (∀ ix, wT.shape.getD 1 0 ≤ ix.getD 1 0 →
      (concat_first wT ((1 : ℕ) : ℤ) 1).data ix =
        (expand_first wT 1).data (ix.set 1 (ix.getD 1 0 - wT.shape.getD 1 0))) :=
  concat_first_axis_doubling wT 2 [1] 1 rfl (by decide) (by decide) (by decide)

/-- C3: with scale 1 the batch broadcaster keeps the shape and fills the first
half of the batch with element 0 and the second half with element b/2. -/
theorem expand_first_scale_one (t : Tensor) (b : ℕ) (rest : List ℕ)
    (hsh : t.shape = b :: rest) (heven : b % 2 = 0) (hb : 0 < b) :
    (expand_first t 1).shape = t.shape ∧
    ∀ i ix, i < b → validIx rest ix = true →
      (expand_first t 1).data (i :: ix) =
        t.data ((if i < b / 2 then 0 else b / 2) :: ix) := by
  have hh : 0 < b / 2 := by omega
  refine ⟨rfl, ?_⟩
  intro i ix hi hix
  have hi2 : i < 2 * (b / 2) := by omega
  have hmi := multiIdx_merge (b / 2) rest i ix hh hi2 hix
  have expand_eq : expand_first t 1 =
      Tensor.reshape
        ((Tensor.stack2 (t.index0 0) (t.index0 (b / 2))).unsqueeze1.expandShape
          (2 :: (b / 2) :: rest))
        (b :: rest) := by
    simp only [expand_first, hsh, List.headD_cons, List.tail_cons]
    rw [if_pos trivial]
  rw [expand_eq]
  have hlin : linIdx (b :: rest) (i :: ix) = i * rest.prod + linIdx rest ix := rfl
  have hbix : bix (2 :: 1 :: rest) (i / (b / 2) :: i % (b / 2) :: ix) =
      i / (b / 2) :: 0 :: ix := by
    show (if (2 : ℕ) = 1 then 0 else i / (b / 2)) ::
        (if (1 : ℕ) = 1 then 0 else i % (b / 2)) :: bix rest ix = _
    rw [bix_valid rest ix hix]
    norm_num
  have hushape : ((t.index0 0).stack2 (t.index0 (b / 2))).unsqueeze1.shape =
      2 :: 1 :: rest := by
    simp [Tensor.unsqueeze1, Tensor.stack2, Tensor.index0, hsh]
  simp only [Tensor.reshape, Tensor.expandShape]
  rw [hlin, hmi, hushape, hbix]
  by_cases hcase : i < b / 2
  · have hz : i / (b / 2) = 0 := Nat.div_eq_of_lt hcase
    simp [Tensor.unsqueeze1, Tensor.stack2, Tensor.index0, hz, hcase]
  · have hz : ¬(i / (b / 2) = 0) := by
      have hle : b / 2 ≤ i := le_of_not_lt hcase
      have := Nat.div_pos hle hh
      omega
    simp [Tensor.unsqueeze1, Tensor.stack2, Tensor.index0, hz, hcase]

/-- C3 witness: the scale-1 broadcast theorem applied to a concrete tensor of
batch size 2. -/
theorem expand_first_scale_one_witness :
    (expand_first wT 1).shape = wT.shape ∧
    ∀ i ix, i < 2 → validIx [1] ix = true →
      (expand_first wT 1).data (i :: ix) =
        wT.data ((if i < 2 / 2 then 0 else 2 / 2) :: ix) :=
  expand_first_scale_one wT 2 [1] rfl (by decide) (by decide)

/-- C2 counterexample: with scale 2 on a concrete 4-dimensional tensor of
batch size 4, output batch slot 2 (the leading copy of the second style
element) equals the unscaled input element, not 2 times it, refuting the claim
that every slot other than slot 0 is multiplied by the scale. -/
theorem expand_first_scale_counterexample :
    (expand_first cT4 2).data [2, 0, 0, 0] = cT4.data [2, 0, 0, 0] ∧
    cT4.data [2, 0, 0, 0] ≠ 2 * cT4.data [2, 0, 0, 0] := by
  have h2 : cT4.data [2, 0, 0, 0] = 2 := by norm_num [cT4]
  constructor
  · rw [h2]
    norm_num [expand_first, cT4, Tensor.reshape, Tensor.catAt, Tensor.sliceTo,
      Tensor.sliceFrom, Tensor.smul, Tensor.repeatDims, Tensor.unsqueeze1,
      Tensor.stack2, Tensor.index0, multiIdx, linIdx, List.getD]
  · rw [h2]
    norm_num

/-- C2 (amended): with scale different from 1 on a 4-dimensional tensor of
even batch size, the broadcaster keeps the shape and leaves the leading copy
of each of the two style elements (batch slots 0 and b/2) unscaled, while
every other slot holds the corresponding style element multiplied by the
scale. -/
theorem expand_first_nonunit_scale (t : Tensor) (b d1 d2 d3 : ℕ) (s : ℚ)
    (hsh : t.shape = [b, d1, d2, d3]) (heven : b % 2 = 0) (hb : 0 < b)
    (hs : s ≠ 1) :
    (expand_first t s).shape = t.shape ∧
    ∀ i ix, i < b → validIx [d1, d2, d3] ix = true →
      (expand_first t s).data (i :: ix) =
        (if i = 0 ∨ i = b / 2 then (1 : ℚ) else s) *
          t.data ((if i < b / 2 then 0 else b / 2) :: ix) := by
  have hh : 0 < b / 2 := by omega
  refine ⟨rfl, ?_⟩
  intro i ix hi hix
  have hi2 : i < 2 * (b / 2) := by omega
  have hmi := multiIdx_merge (b / 2) [d1, d2, d3] i ix hh hi2 hix
  have hdiv2 : i / (b / 2) < 2 := Nat.div_lt_of_lt_mul (by omega)
  have hdmod : i / (b / 2) % 2 = i / (b / 2) := Nat.mod_eq_of_lt hdiv2
  have hzip := modIx_valid [d1, d2, d3] ix hix
  have expand_eq : expand_first t s =
      Tensor.reshape
        (Tensor.catAt
          ((((t.index0 0).stack2 (t.index0 (b / 2))).unsqueeze1.repeatDims
              [1, b / 2, 1, 1, 1]).sliceTo 1 1)
          (Tensor.smul s
            ((((t.index0 0).stack2 (t.index0 (b / 2))).unsqueeze1.repeatDims
                [1, b / 2, 1, 1, 1]).sliceFrom 1 1))
          1)
        [b, d1, d2, d3] := by
    simp only [expand_first, hsh, List.headD_cons, List.tail_cons]
    rw [if_neg hs]
  rw [expand_eq]
  simp only [Tensor.reshape]
  set fs := ((t.index0 0).stack2 (t.index0 (b / 2))).unsqueeze1.repeatDims
    [1, b / 2, 1, 1, 1] with hfs
  set A := fs.sliceTo 1 1 with hA
  set B := Tensor.smul s (fs.sliceFrom 1 1) with hB
  have hushape : ((t.index0 0).stack2 (t.index0 (b / 2))).unsqueeze1.shape =
      [2, 1, d1, d2, d3] := by
    simp [Tensor.unsqueeze1, Tensor.stack2, Tensor.index0, hsh]
  have hfshape : fs.shape = [2, b / 2, d1, d2, d3] := by
    rw [hfs]
    simp only [Tensor.repeatDims, hushape]
    norm_num
  have hAshape : A.shape = [2, 1, d1, d2, d3] := by
    have hmin : min 1 (b / 2) = 1 := min_eq_left hh
    rw [hA]
    simp [Tensor.sliceTo, hfshape, hmin]
  have hBshape : B.shape = [2, b / 2 - 1, d1, d2, d3] := by
    rw [hB]
    simp [Tensor.smul, Tensor.sliceFrom, hfshape]
  have hCshape : (Tensor.catAt A B 1).shape = [2, b / 2, d1, d2, d3] := by
    have h1b : 1 + (b / 2 - 1) = b / 2 := by omega
    simp [Tensor.catAt, hAshape, hBshape, h1b]
  have hlin : linIdx [b, d1, d2, d3] (i :: ix) =
      i * [d1, d2, d3].prod + linIdx [d1, d2, d3] ix := rfl
  rw [hCshape, hlin, hmi]
  have hrep : ∀ j : ℕ, fs.data (i / (b / 2) :: j :: ix) =
      (if i / (b / 2) = 0 then t.data (0 :: ix) else t.data (b / 2 :: ix)) := by
    intro j
    rw [hfs]
    simp only [Tensor.repeatDims, hushape]
    have hz : List.zipWith (fun i s => i % s) (i / (b / 2) :: j :: ix)
        [2, 1, d1, d2, d3] = i / (b / 2) :: 0 :: ix := by
      simp only [List.zipWith_cons_cons, hzip, hdmod, Nat.mod_one]
    rw [hz]
    simp [Tensor.unsqueeze1, Tensor.stack2, Tensor.index0]
  have hgidx : ((i / (b / 2) :: i % (b / 2) :: ix) : List ℕ).getD 1 0 =
      i % (b / 2) := rfl
  have hgA : A.shape.getD 1 0 = 1 := by rw [hAshape]; rfl
  simp only [Tensor.catAt, hgidx, hgA]
  by_cases hmod : i % (b / 2) = 0
  · have hior : i = 0 ∨ i = b / 2 := by
      rcases lt_or_ge i (b / 2) with hlt | hge
      · left
        have heq := Nat.mod_eq_of_lt hlt
        rw [heq] at hmod
        exact hmod
      · right
        have hdm := Nat.div_add_mod i (b / 2)
        have hpos : 0 < i / (b / 2) := Nat.div_pos hge hh
        have h1 : i / (b / 2) = 1 := Nat.le_antisymm (Nat.lt_succ_iff.mp hdiv2) hpos
        rw [h1, hmod] at hdm
        simpa using hdm.symm
    rw [hmod, if_pos (by norm_num : (0 : ℕ) < 1)]
    rw [hA]
    simp only [Tensor.sliceTo]
    rw [hrep 0, if_pos hior, one_mul]
    by_cases hcase : i < b / 2
    · have hz : i / (b / 2) = 0 := Nat.div_eq_of_lt hcase
      simp [hz, hcase]
    · have hz : ¬(i / (b / 2) = 0) := by
        have hle : b / 2 ≤ i := le_of_not_lt hcase
        have := Nat.div_pos hle hh
        omega
      simp [hz, hcase]
  · have hpos1 : 1 ≤ i % (b / 2) := Nat.one_le_iff_ne_zero.mpr hmod
    have hnor : ¬(i = 0 ∨ i = b / 2) := by
      rintro (rfl | rfl)
      · exact hmod (Nat.zero_mod _)
      · exact hmod (Nat.mod_self _)
    rw [if_neg (by omega)]
    have hset1 : ((i / (b / 2) :: i % (b / 2) :: ix).set 1 (i % (b / 2) - 1)) =
        i / (b / 2) :: (i % (b / 2) - 1) :: ix := rfl
    rw [hset1, hB]
    simp only [Tensor.smul, Tensor.sliceFrom]
    have hget1 : ((i / (b / 2) :: (i % (b / 2) - 1) :: ix) : List ℕ).getD 1 0 =
        i % (b / 2) - 1 := rfl
    rw [hget1]
    have hset2 : ((i / (b / 2) :: (i % (b / 2) - 1) :: ix).set 1
        (i % (b / 2) - 1 + 1)) = i / (b / 2) :: i % (b / 2) :: ix := by
      have hsac : i % (b / 2) - 1 + 1 = i % (b / 2) := Nat.sub_add_cancel hpos1
      rw [show ((i / (b / 2) :: (i % (b / 2) - 1) :: ix).set 1
        (i % (b / 2) - 1 + 1)) = i / (b / 2) :: (i % (b / 2) - 1 + 1) :: ix from rfl]
      rw [hsac]
    rw [hset2]
    rw [hrep (i % (b / 2)), if_neg hnor]
    by_cases hcase : i < b / 2
    · have hz : i / (b / 2) = 0 := Nat.div_eq_of_lt hcase
      simp [hz, hcase]
    · have hz : ¬(i / (b / 2) = 0) := by
        have hle : b / 2 ≤ i := le_of_not_lt hcase
        have := Nat.div_pos hle hh
        omega
      simp [hz, hcase]

/-- C2 witness: the amended non-unit-scale theorem applied to the concrete
4-dimensional tensor of batch size 4 with scale 2. -/
theorem expand_first_nonunit_scale_witness :
    (expand_first cT4 2).shape = cT4.shape ∧
    ∀ i ix, i < 4 → validIx [1, 1, 1] ix = true →
      (expand_first cT4 2).data (i :: ix) =
        (if i = 0 ∨ i = 4 / 2 then (1 : ℚ) else 2) *
          cT4.data ((if i < 4 / 2 then 0 else 4 / 2) :: ix) :=
  expand_first_nonunit_scale cT4 4 1 1 1 2 rfl (by decide) (by decide) (by decide)

/-- C5: adain equals the normalise-then-restyle formula
(input - mean) / std * style_std + style_mean, where the statistics reduce
over the second-to-last axis keeping it as extent 1, the standard deviation
applies the square root to variance + 1e-5, and the style statistics
broadcast the batch-0 and batch-b/2 statistics via expand_first with scale 1. -/
theorem adain_formula (sq : ℚ → ℚ) (t : Tensor) (h : 2 ≤ t.shape.length) :
    adain sq t =
      Tensor.add
        (Tensor.mul
          (Tensor.div (Tensor.sub t (calc_mean_std sq t (1 / 100000)).1)
            (calc_mean_std sq t (1 / 100000)).2)
          (expand_first (calc_mean_std sq t (1 / 100000)).2 1))
        (expand_first (calc_mean_std sq t (1 / 100000)).1 1) ∧
    (calc_mean_std sq t (1 / 100000)).1.shape = t.shape.set (seqDim t) 1 ∧
    (calc_mean_std sq t (1 / 100000)).2.shape = t.shape.set (seqDim t) 1 ∧
    (∀ ix, (calc_mean_std sq t (1 / 100000)).1.data ix = meanFormula t ix) ∧
    (∀ ix, (calc_mean_std sq t (1 / 100000)).2.data ix =
      sq (varFormula t ix + 1 / 100000)) := by
  have hd : normDim t.shape.length (-2) = seqDim t := normDim_neg_two _ h
  refine ⟨rfl, ?_, ?_, ?_, ?_⟩
  · show t.shape.set (normDim t.shape.length (-2)) 1 = _
    rw [hd]
  · show t.shape.set (normDim t.shape.length (-2)) 1 = _
    rw [hd]
  · intro ix
    simp only [calc_mean_std, Tensor.meanDim, meanFormula, seqLen, seqDim, hd]
  · intro ix
    simp only [calc_mean_std, Tensor.varDim, Tensor.mapElems, varFormula,
      meanFormula, seqLen, seqDim, hd]

/-- C5 witness: the adain formula theorem applied at a concrete tensor with
the identity as the abstract square root. -/
theorem adain_formula_witness :
    adain (fun x => x) wT =
      Tensor.add
        (Tensor.mul
          (Tensor.div (Tensor.sub wT (calc_mean_std (fun x => x) wT (1 / 100000)).1)
            (calc_mean_std (fun x => x) wT (1 / 100000)).2)
          (expand_first (calc_mean_std (fun x => x) wT (1 / 100000)).2 1))
        (expand_first (calc_mean_std (fun x => x) wT (1 / 100000)).1 1) ∧
    (calc_mean_std (fun x => x) wT (1 / 100000)).1.shape =
      wT.shape.set (seqDim wT) 1 ∧
    (calc_mean_std (fun x => x) wT (1 / 100000)).2.shape =
      wT.shape.set (seqDim wT) 1 ∧
    (∀ ix, (calc_mean_std (fun x => x) wT (1 / 100000)).1.data ix =
      meanFormula wT ix) ∧
    (∀ ix, (calc_mean_std (fun x => x) wT (1 / 100000)).2.data ix =
      varFormula wT ix + 1 / 100000) :=
  adain_formula (fun x => x) wT (by decide)

/-- C6: the processor conditionally renormalises q, k, v in that order, then
when share_attention is set concatenates the broadcast style element onto the
key along the sequence axis with the configured scale and onto the value with
scale 1; the returned query keeps its sequence length, and under
share_attention the returned key and value sequence lengths are exactly
double their inputs. -/
theorem shared_attention_call_spec (sq : ℚ → ℚ) (p : SharedAttentionProcessor)
    (q k v : Tensor) (α : Type) (eo : α)
    (hk : 2 ≤ k.shape.length) (hv : 2 ≤ v.shape.length)
    (hqb : q.shape.headD 0 % 2 = 0) (hkb : k.shape.headD 0 % 2 = 0)
    (hvb : v.shape.headD 0 % 2 = 0) :
    (p.call sq q k v eo).1 = (if p.args.adain_queries then adain sq q else q) ∧
    (p.call sq q k v eo).2.1 =
      (if p.args.share_attention then
        concat_first (if p.args.adain_keys then adain sq k else k) (-2) p.scale
      else (if p.args.adain_keys then adain sq k else k)) ∧
    (p.call sq q k v eo).2.2 =
      (if p.args.share_attention then
        concat_first (if p.args.adain_values then adain sq v else v) (-2) 1
      else (if p.args.adain_values then adain sq v else v)) ∧
    seqLen (p.call sq q k v eo).1 = seqLen q ∧
    (p.args.share_attention = true →
      seqLen (p.call sq q k v eo).2.1 = 2 * seqLen k ∧
      seqLen (p.call sq q k v eo).2.2 = 2 * seqLen v) := by
  refine ⟨rfl, ?_, ?_, ?_, ?_⟩
  · by_cases hsa : p.args.share_attention <;>
      simp [SharedAttentionProcessor.call, hsa]
  · by_cases hsa : p.args.share_attention <;>
      simp [SharedAttentionProcessor.call, hsa]
  · show seqLen (if p.args.adain_queries then adain sq q else q) = seqLen q
    by_cases ha : p.args.adain_queries
    · rw [if_pos ha]
      exact seqLen_of_shape_eq (adain_shape sq q)
    · rw [if_neg ha]
  · intro hsa
    have hk2 : (if p.args.adain_keys then adain sq k else k).shape = k.shape := by
      by_cases ha : p.args.adain_keys
      · rw [if_pos ha]
        exact adain_shape sq k
      · rw [if_neg ha]
    have hv2 : (if p.args.adain_values then adain sq v else v).shape = v.shape := by
      by_cases ha : p.args.adain_values
      · rw [if_pos ha]
        exact adain_shape sq v
      · rw [if_neg ha]
    have h21 : (p.call sq q k v eo).2.1 =
        concat_first (if p.args.adain_keys then adain sq k else k) (-2) p.scale := by
      simp [SharedAttentionProcessor.call, hsa]
    have h22 : (p.call sq q k v eo).2.2 =
        concat_first (if p.args.adain_values then adain sq v else v) (-2) 1 := by
      simp [SharedAttentionProcessor.call, hsa]
    constructor
    · rw [h21, (seqLen_concat_first_neg_two _ p.scale (by rw [hk2]; exact hk)).1,
        seqLen_of_shape_eq hk2]
    · rw [h22, (seqLen_concat_first_neg_two _ 1 (by rw [hv2]; exact hv)).1,
        seqLen_of_shape_eq hv2]

/-- C6 witness: the processor theorem applied with the default configuration
(share_attention on) to concrete tensors of batch size 2. -/
theorem shared_attention_call_spec_witness :
    seqLen ((⟨defaultStyleAlignedArgs, 1, none⟩ : SharedAttentionProcessor).call
      (fun x => x) wT wT wT ()).1 = seqLen wT ∧
    seqLen ((⟨defaultStyleAlignedArgs, 1, none⟩ : SharedAttentionProcessor).call
      (fun x => x) wT wT wT ()).2.1 = 2 * seqLen wT ∧
    seqLen ((⟨defaultStyleAlignedArgs, 1, none⟩ : SharedAttentionProcessor).call
      (fun x => x) wT wT wT ()).2.2 = 2 * seqLen wT := by
  have h := shared_attention_call_spec (fun x => x)
    ⟨defaultStyleAlignedArgs, 1, none⟩ wT wT wT Unit ()
    (by decide) (by decide) (by decide) (by decide) (by decide)
  exact ⟨h.2.2.2.1, (h.2.2.2.2 rfl).1, (h.2.2.2.2 rfl).2⟩

/-- C8: wrapping twice caches exactly one original forward, namely the
pre-wrap original from the first wrap, and the installed forward widens the
input along the sequence axis, delegates to that cached original, and
truncates back to the input sequence length, so for a shape-preserving
original the output shape equals the input shape. -/
theorem register_norm_forward_idempotent (l : NormLayer)
    (h0 : l.orig_forward = none)
    (hps : ∀ x, (l.forward x).shape = x.shape) :
    (register_norm_forward l).orig_forward = some l.forward ∧
    (register_norm_forward (register_norm_forward l)).orig_forward =
      some l.forward ∧
    (∀ u, (register_norm_forward (register_norm_forward l)).forward u =
      (l.forward (concat_first u (-2) 1)).sliceTo
        ((l.forward (concat_first u (-2) 1)).shape.length - 2) (seqLen u)) ∧
    (∀ u, 2 ≤ u.shape.length →
      ((register_norm_forward (register_norm_forward l)).forward u).shape =
        u.shape) := by
  have hwrap : ∀ (m : NormLayer) (f : Tensor → Tensor), m.orig_forward = some f →
      (register_norm_forward m).orig_forward = some f ∧
      (∀ u, (register_norm_forward m).forward u =
        (f (concat_first u (-2) 1)).sliceTo
          ((f (concat_first u (-2) 1)).shape.length - 2)
          (u.shape.getD (u.shape.length - 2) 0)) := by
    intro m f hm
    constructor
    · simp [register_norm_forward, hm]
    · intro u
      simp [register_norm_forward, hm]
  have h1 : (register_norm_forward l).orig_forward = some l.forward := by
    simp [register_norm_forward, h0]
  refine ⟨h1, (hwrap _ _ h1).1, fun u => (hwrap _ _ h1).2 u, ?_⟩
  intro u hu
  rw [(hwrap _ _ h1).2 u]
  simp only [Tensor.sliceTo]
  have hw : (concat_first u (-2) 1).shape =
      u.shape.set (u.shape.length - 2)
        (u.shape.getD (u.shape.length - 2) 0 +
          u.shape.getD (u.shape.length - 2) 0) := by
    rw [concat_first_neg_two_shape, normDim_neg_two _ hu]
  have hfw : (l.forward (concat_first u (-2) 1)).shape =
      u.shape.set (u.shape.length - 2)
        (u.shape.getD (u.shape.length - 2) 0 +
          u.shape.getD (u.shape.length - 2) 0) := by
    rw [hps, hw]
  rw [hfw]
  have hlen : (u.shape.set (u.shape.length - 2)
      (u.shape.getD (u.shape.length - 2) 0 +
        u.shape.getD (u.shape.length - 2) 0)).length = u.shape.length :=
    List.length_set ..
  rw [hlen]
  have hgd : (u.shape.set (u.shape.length - 2)
      (u.shape.getD (u.shape.length - 2) 0 +
        u.shape.getD (u.shape.length - 2) 0)).getD (u.shape.length - 2) 0 =
      u.shape.getD (u.shape.length - 2) 0 +
        u.shape.getD (u.shape.length - 2) 0 :=
    getD_set_self _ _ _ (by omega)
  rw [hgd]
  have hmin : min (u.shape.getD (u.shape.length - 2) 0)
      (u.shape.getD (u.shape.length - 2) 0 +
        u.shape.getD (u.shape.length - 2) 0) =
      u.shape.getD (u.shape.length - 2) 0 :=
    min_eq_left (by omega)
  rw [hmin, List.set_set]
  exact set_getD_self _ _ (by omega)

/-- C8 witness: the idempotent wrap theorem applied to a concrete pristine
identity layer and a concrete rank-2 tensor. -/
theorem register_norm_forward_idempotent_witness :
    (register_norm_forward idNormLayer).orig_forward = some idNormLayer.forward ∧
    (register_norm_forward (register_norm_forward idNormLayer)).orig_forward =
      some idNormLayer.forward ∧
    (∀ u, (register_norm_forward (register_norm_forward idNormLayer)).forward u =
      (idNormLayer.forward (concat_first u (-2) 1)).sliceTo
        ((idNormLayer.forward (concat_first u (-2) 1)).shape.length - 2)
        (seqLen u)) ∧
    (∀ u, 2 ≤ u.shape.length →
      ((register_norm_forward (register_norm_forward idNormLayer)).forward u).shape =
        u.shape) :=
  register_norm_forward_idempotent idNormLayer rfl (fun _ => rfl)

end StyleAligned
